import Mathlib

/-!
Verification of the `pbkdf` package (src/pbkdf.go): a PBKDF2 password-hashing
utility whose non-trivial logic is the encode/decode protocol for the
`$pbkdf2-sha256$i=..,l=..$<b64 salt>$<b64 key>` string plus verification.

Shallow embedding conventions:
- Go byte slices are `List Nat` (each element a byte value, `< 256` where the
  Go type guarantees it).
- Go strings are `List Char`.
- Go `int` is `Int` (64-bit in Go; range side conditions appear where parsing
  round-trips depend on them).
- Fallible Go functions returning `(T, error)` become `Except GoErr T`.
- The two external collaborators are inputs: the PBKDF2 primitive
  (`golang.org/x/crypto/pbkdf2.Key`) is an explicit function argument `prf`,
  and the secure random source (`crypto/rand.Read`) is an explicit function
  argument `randRead`.  Library helpers the code calls (`encoding/base64`
  RawStdEncoding, `strings.Split`, `strconv.Atoi`,
  `crypto/subtle.ConstantTimeCompare`) are modelled below from their
  documented stdlib behaviour.
-/

/-- Error values of the package.  The Go code builds errors with
`errors.New`; the two fixed messages are "salt length must be positive"
(called `InvalidArgument` by the spec) and "invalid or corrupted hash"
(`InvalidOrCorruptedHash`).  All eight `errors.New("invalid or corrupted
hash")` sites in `Verify` produce the same message, modelled as the single
constructor `invalidOrCorruptedHash`.  Errors coming out of the random
source are `randErr`. -/
inductive GoErr where
  | invalidArgument
  | invalidOrCorruptedHash
  | randErr (msg : String)
  deriving DecidableEq

/-- Identifier for a `func() hash.Hash` value.  `sha256New` stands for
`sha256.New`; `otherFam` stands for any other hash constructor a caller
could put in `Params.HashFunc`. -/
inductive HashFam where
  | sha256New
  | otherFam (id : Nat)
  deriving DecidableEq

/-- The PBKDF2 primitive `pbkdf2.Key(password, salt, iter, keyLen, h)` is an
external collaborator; the development is parameterised over it.  Arguments:
hash family, password, salt, iterations, keyLen; result: derived key. -/
abbrev Prf : Type := HashFam → List Nat → List Nat → Int → Int → List Nat

/-- A model of `crypto/rand.Read` filling a buffer of the given size:
either the bytes that the source produced, or the propagated read error. -/
abbrev RandRead : Type := Nat → Except GoErr (List Nat)

/-- Params configures the PBKDF2 hashing (src/pbkdf.go:50-55). -/
structure Params where
  Iterations : Int
  KeyLen : Int
  SaltLen : Int
  HashFunc : Option HashFam
  deriving DecidableEq

/-- A `Params` after the zero-value defaulting of src/pbkdf.go:79-90: every
field is populated (`HashFunc` is no longer optional). -/
structure ResolvedParams where
  Iterations : Int
  KeyLen : Int
  SaltLen : Int
  HashFunc : HashFam
  deriving DecidableEq

/-- DefaultParams (src/pbkdf.go:42-47): iterations 120000, key length 32,
salt length 16, `sha256.New`. -/
def DefaultParams : Params :=
  { Iterations := 120000, KeyLen := 32, SaltLen := 16,
    HashFunc := some HashFam.sha256New }

/-- The defaulting prologue of `Params.Hash` (src/pbkdf.go:79-90): each field
equal to the zero value of its type (0, resp. nil) is replaced by the
corresponding `DefaultParams` field; other values are kept.
`Option.getD HashFam.sha256New` is exactly "use `DefaultParams.HashFunc =
sha256.New` when nil". -/
def resolveParams (p : Params) : ResolvedParams :=
  { Iterations := if p.Iterations = 0 then DefaultParams.Iterations else p.Iterations,
    KeyLen := if p.KeyLen = 0 then DefaultParams.KeyLen else p.KeyLen,
    SaltLen := if p.SaltLen = 0 then DefaultParams.SaltLen else p.SaltLen,
    HashFunc := p.HashFunc.getD HashFam.sha256New }

/-- GenerateSalt (src/pbkdf.go:58-67): rejects non-positive lengths with
the "salt length must be positive" error, otherwise reads `length` bytes
from the random source, propagating its error verbatim. -/
def GenerateSalt (randRead : RandRead) (length : Int) : Except GoErr (List Nat) :=
  if length ≤ 0 then .error .invalidArgument
  else
    match randRead length.toNat with
    | .error e => .error e
    | .ok salt => .ok salt

/-- A well-behaved secure random source: a successful read of `n` bytes
yields exactly `n` byte values, and a failed read reports a read error
(not one of the package's own error values). -/
def GoodRand (randRead : RandRead) : Prop :=
  (∀ n bs, randRead n = .ok bs → bs.length = n ∧ ∀ b ∈ bs, b < 256) ∧
  (∀ n e, randRead n = .error e → ∃ msg, e = GoErr.randErr msg)

/-- A well-behaved PBKDF2 primitive: its output is a byte sequence.  (The
real `pbkdf2.Key` returns a `[]byte`.) -/
def GoodPrf (prf : Prf) : Prop :=
  ∀ hf pw salt i k, ∀ b ∈ prf hf pw salt i k, b < 256

/-- A Go `int` is 64-bit; this is the value range of the type. -/
def IntFits (i : Int) : Prop := -(2 ^ 63) ≤ i ∧ i < 2 ^ 63

instance (i : Int) : Decidable (IntFits i) := by
  unfold IntFits
  infer_instance

/-- The base64 standard alphabet used by `encoding/base64.RawStdEncoding`. -/
def b64Alphabet : List Char :=
  "ABCDEFGHIJKLMNOPQRSTUVWXYZabcdefghijklmnopqrstuvwxyz0123456789+/".toList

/-- Character for a 6-bit group (index into the standard alphabet). -/
def b64EncChar (n : Nat) : Char := b64Alphabet.getD n 'A'

/-- Unpadded standard base64 encoding, as `RawStdEncoding.EncodeToString`:
3 input bytes become 4 characters; a final remainder of 1 / 2 bytes becomes
2 / 3 characters and no padding is emitted.  Go packs the group into
`val = b0<<16 | b1<<8 | b2` and emits 6-bit slices `val>>18, val>>12&63,
val>>6&63, val&63`; since the byte fields are disjoint this is the
arithmetic below (`%256` models the `byte` element type). -/
def b64Encode : List Nat → List Char
  | [] => []
  | [b0] =>
    let val := b0 % 256 * 65536
    [b64EncChar (val / 262144), b64EncChar (val / 4096 % 64)]
  | [b0, b1] =>
    let val := b0 % 256 * 65536 + b1 % 256 * 256
    [b64EncChar (val / 262144), b64EncChar (val / 4096 % 64), b64EncChar (val / 64 % 64)]
  | b0 :: b1 :: b2 :: rest =>
    let val := b0 % 256 * 65536 + b1 % 256 * 256 + b2 % 256
    b64EncChar (val / 262144) :: b64EncChar (val / 4096 % 64) ::
      b64EncChar (val / 64 % 64) :: b64EncChar (val % 64) :: b64Encode rest

/-- Value of one base64 character under the standard alphabet (codes 65-90
are `A`-`Z`, 97-122 are `a`-`z`, 48-57 are `0`-`9`); `none` for a character
outside the alphabet (including the padding character, which
`RawStdEncoding` rejects). -/
def b64DecChar (c : Char) : Option Nat :=
  if 65 ≤ c.toNat ∧ c.toNat ≤ 90 then some (c.toNat - 65)
  else if 97 ≤ c.toNat ∧ c.toNat ≤ 122 then some (c.toNat - 97 + 26)
  else if 48 ≤ c.toNat ∧ c.toNat ≤ 57 then some (c.toNat - 48 + 52)
  else if c = '+' then some 62
  else if c = '/' then some 63
  else none

/-- Decoding of the newline-free character stream, quantum by quantum.  A
final quantum of 1 character is invalid; final quanta of 2 / 3 characters
yield 1 / 2 bytes (Go here discards the unused low bits without checking
them: `RawStdEncoding` is not the `Strict()` variant). -/
def b64DecodeGroups : List Char → Option (List Nat)
  | [] => some []
  | [_] => none
  | [c0, c1] =>
    match b64DecChar c0, b64DecChar c1 with
    | some n0, some n1 => some [n0 * 4 + n1 / 16]
    | _, _ => none
  | [c0, c1, c2] =>
    match b64DecChar c0, b64DecChar c1, b64DecChar c2 with
    | some n0, some n1, some n2 => some [n0 * 4 + n1 / 16, n1 % 16 * 16 + n2 / 4]
    | _, _, _ => none
  | c0 :: c1 :: c2 :: c3 :: rest =>
    match b64DecChar c0, b64DecChar c1, b64DecChar c2, b64DecChar c3 with
    | some n0, some n1, some n2, some n3 =>
      match b64DecodeGroups rest with
      | some bs => some ((n0 * 4 + n1 / 16) :: (n1 % 16 * 16 + n2 / 4) :: (n2 % 4 * 64 + n3) :: bs)
      | none => none
    | _, _, _, _ => none

/-- Model of `base64.RawStdEncoding.DecodeString`: the Go decoder skips
carriage returns and newlines anywhere in the input, then decodes the
remaining characters strictly (no padding accepted, a trailing quantum of
one character is an error). -/
def b64Decode (cs : List Char) : Option (List Nat) :=
  b64DecodeGroups (cs.filter fun c => ¬(c = '\r' ∨ c = '\n'))

/-- Model of `strings.Split(s, sep)` for a single-character separator:
`acc` holds the current field, reversed. -/
def splitOnCharAux (sep : Char) : List Char → List Char → List (List Char)
  | [], acc => [acc.reverse]
  | c :: rest, acc =>
    if c = sep then acc.reverse :: splitOnCharAux sep rest []
    else splitOnCharAux sep rest (c :: acc)

/-- `strings.Split(s, String(sep))`: the fields of `s` between occurrences
of `sep` (`[[]]` on the empty string, as in Go). -/
def splitOnChar (sep : Char) (s : List Char) : List (List Char) :=
  splitOnCharAux sep s []

/-- Decimal digit character (used to model the `%d` verb of
`fmt.Sprintf`). -/
def digitChar : Nat → Char
  | 0 => '0'
  | 1 => '1'
  | 2 => '2'
  | 3 => '3'
  | 4 => '4'
  | 5 => '5'
  | 6 => '6'
  | 7 => '7'
  | 8 => '8'
  | _ => '9'

/-- Decimal digits of `n`, most significant first; fuel-structured so that
it reduces definitionally (`natDigits` below supplies adequate fuel). -/
def natDigitsFuel : Nat → Nat → List Char
  | 0, _ => []
  | fuel + 1, n =>
    if n < 10 then [digitChar n]
    else natDigitsFuel fuel (n / 10) ++ [digitChar (n % 10)]

/-- Decimal representation of a natural number (`"0"` for 0). -/
def natDigits (n : Nat) : List Char := natDigitsFuel (n + 1) n

/-- The characters `fmt.Sprintf("%d", i)` produces for a Go int. -/
def intChars (i : Int) : List Char :=
  if i < 0 then '-' :: natDigits i.natAbs else natDigits i.natAbs

/-- Numeric value of a decimal digit character, `none` otherwise. -/
def digitVal (c : Char) : Option Nat :=
  if '0' ≤ c ∧ c ≤ '9' then some (c.toNat - 48) else none

/-- Left-to-right accumulation of decimal digits; fails on any non-digit. -/
def parseDigitsGo (acc : Nat) : List Char → Option Nat
  | [] => some acc
  | c :: rest =>
    match digitVal c with
    | none => none
    | some d => parseDigitsGo (acc * 10 + d) rest

/-- Digits-only parse of a non-empty string. -/
def parseDigits (s : List Char) : Option Nat :=
  match s with
  | [] => none
  | _ => parseDigitsGo 0 s

/-- Model of `strconv.Atoi`: optional sign, then a non-empty run of decimal
digits; the value must fit in a 64-bit int (otherwise `ErrRange`, an
error).  `none` models any returned error. -/
def Atoi (s : List Char) : Option Int :=
  match s with
  | [] => none
  | c :: rest =>
    if c = '-' then
      match parseDigits rest with
      | none => none
      | some n => if n ≤ 2 ^ 63 then some (-(n : Int)) else none
    else if c = '+' then
      match parseDigits rest with
      | none => none
      | some n => if n < 2 ^ 63 then some (n : Int) else none
    else
      match parseDigits (c :: rest) with
      | none => none
      | some n => if n < 2 ^ 63 then some (n : Int) else none

/-- Model of `subtle.ConstantTimeByteEq(x, y)`:
`int((uint32(x^y) - 1) >> 31)`.  The `uint8` parameters are `% 256`; the
`uint32` subtraction of 1 is addition of `2^32 - 1` modulo `2^32`. -/
def constantTimeByteEq (x y : Nat) : Nat :=
  ((x % 256 ^^^ y % 256) + (2 ^ 32 - 1)) % 2 ^ 32 / 2 ^ 31

/-- The accumulation loop of `subtle.ConstantTimeCompare`:
`for i { v |= x[i] ^ y[i] }` with `v` of type `byte`. -/
def ctcFold : List Nat → List Nat → Nat → Nat
  | [], _, v => v
  | _, [], v => v
  | a :: as, b :: bs, v => ctcFold as bs ((v ||| (a % 256 ^^^ b % 256)) % 256)

/-- Model of `subtle.ConstantTimeCompare(x, y)`: 0 when the lengths differ,
otherwise 1 exactly when all bytes match, computed without early exit. -/
def constantTimeCompare (x y : List Nat) : Nat :=
  if x.length ≠ y.length then 0
  else constantTimeByteEq (ctcFold x y 0) 0

/-- Number of loop iterations `subtle.ConstantTimeCompare` executes on the
equal-length path: the cost model used to state the constant-time claim. -/
def ctcFoldSteps : List Nat → List Nat → Nat
  | [], _ => 0
  | _, [] => 0
  | _ :: as, _ :: bs => ctcFoldSteps as bs + 1

/-- Cost of `constantTimeCompare` in comparison-loop iterations (0 when the
initial length check fails). -/
def constantTimeCompareSteps (x y : List Nat) : Nat :=
  if x.length ≠ y.length then 0 else ctcFoldSteps x y

/-- The fixed algorithm identifier of the wire format. -/
def algTag : List Char := "pbkdf2-sha256".toList

/-- The output format of `Params.Hash` (src/pbkdf.go:106):
`fmt.Sprintf("$pbkdf2-sha256$i=%d,l=%d$%s$%s", iter, keyLen, b64Salt,
b64Hash)`. -/
def fmtEncoded (iterations keyLen : Int) (b64Salt b64Hash : List Char) : List Char :=
  '$' :: algTag ++ '$' :: 'i' :: '=' :: intChars iterations ++
    ',' :: 'l' :: '=' :: intChars keyLen ++ '$' :: b64Salt ++ '$' :: b64Hash

/-- Params.Hash (src/pbkdf.go:77-107): default the zero fields, generate a
salt of the resolved length (propagating its error), derive the key with
the configured hash family, and format the encoded string. -/
def Params.Hash (p : Params) (prf : Prf) (randRead : RandRead)
    (password : List Nat) : Except GoErr (List Char) :=
  let q := resolveParams p
  match GenerateSalt randRead q.SaltLen with
  | .error e => .error e
  | .ok salt =>
    let dk := prf q.HashFunc password salt q.Iterations q.KeyLen
    .ok (fmtEncoded q.Iterations q.KeyLen (b64Encode salt) (b64Encode dk))

/-- Hash (src/pbkdf.go:71-73): hash with the default parameters. -/
def Hash (prf : Prf) (randRead : RandRead) (password : List Nat) :
    Except GoErr (List Char) :=
  DefaultParams.Hash prf randRead password

/-- The field-2 loop of Verify (src/pbkdf.go:120-140): scan the
comma-separated entries left to right; an entry that does not split on
`=` into exactly two parts is skipped (`continue`), keys other than
`i` / `l` are ignored by the switch, and an `i` / `l` entry whose value
`strconv.Atoi` rejects aborts with the generic error. -/
def parseParamsLoop : List (List Char) → Int → Int → Except GoErr (Int × Int)
  | [], iterations, keyLen => .ok (iterations, keyLen)
  | param :: rest, iterations, keyLen =>
    match splitOnChar '=' param with
    | [k, v] =>
      if k = ['i'] then
        match Atoi v with
        | none => .error .invalidOrCorruptedHash
        | some n => parseParamsLoop rest n keyLen
      else if k = ['l'] then
        match Atoi v with
        | none => .error .invalidOrCorruptedHash
        | some n => parseParamsLoop rest iterations n
      else parseParamsLoop rest iterations keyLen
    | _ => parseParamsLoop rest iterations keyLen

/-- The parsing stage of Verify (src/pbkdf.go:111-154): split on `$` and
require exactly 5 fields (the leading field is not inspected), require the
`pbkdf2-sha256` tag, run the field-2 loop starting from the zero values,
reject a zero iteration count or key length, and base64-decode the salt
and stored key.  Every failure is the one generic error. -/
def VerifyParse (encodedHash : List Char) : Except GoErr (Int × Int × List Nat × List Nat) :=
  match splitOnChar '$' encodedHash with
  | [_, p1, p2, p3, p4] =>
    if p1 ≠ algTag then .error .invalidOrCorruptedHash
    else
      match parseParamsLoop (splitOnChar ',' p2) 0 0 with
      | .error e => .error e
      | .ok (iterations, keyLen) =>
        if iterations = 0 ∨ keyLen = 0 then .error .invalidOrCorruptedHash
        else
          match b64Decode p3 with
          | none => .error .invalidOrCorruptedHash
          | some salt =>
            match b64Decode p4 with
            | none => .error .invalidOrCorruptedHash
            | some decodedHash => .ok (iterations, keyLen, salt, decodedHash)
  | _ => .error .invalidOrCorruptedHash

/-- Verify (src/pbkdf.go:110-163).  Lines 111-154 are the purely parsing
stage, factored as `VerifyParse`; lines 156-162 then recompute the key
with `sha256.New` — hardcoded, independent of any configured family — and
compare in constant time, returning the boolean with a nil error. -/
def Verify (prf : Prf) (password : List Nat) (encodedHash : List Char) :
    Except GoErr Bool :=
  match VerifyParse encodedHash with
  | .error e => .error e
  | .ok (iterations, keyLen, salt, decodedHash) =>
    let dk := prf HashFam.sha256New password salt iterations keyLen
    if constantTimeCompare dk decodedHash = 1 then .ok true else .ok false

/-! ### Lemmas about `splitOnChar` -/

theorem splitOnCharAux_not_mem {sep : Char} {l : List Char} (h : sep ∉ l) :
    ∀ acc, splitOnCharAux sep l acc = [acc.reverse ++ l] := by
  induction l with
  | nil => intro acc; simp [splitOnCharAux]
  | cons c rest ih =>
    intro acc
    have hc : c ≠ sep := fun hceq => h (hceq ▸ List.mem_cons_self c rest)
    have hrest : sep ∉ rest := fun hm => h (List.mem_cons_of_mem c hm)
    simp only [splitOnCharAux, if_neg hc, ih hrest]
    simp

theorem splitOnCharAux_append_sep {sep : Char} {l : List Char} (h : sep ∉ l) :
    ∀ acc rest, splitOnCharAux sep (l ++ sep :: rest) acc =
      (acc.reverse ++ l) :: splitOnCharAux sep rest [] := by
  induction l with
  | nil => intro acc rest; simp [splitOnCharAux]
  | cons c tl ih =>
    intro acc rest
    have hc : c ≠ sep := fun hceq => h (hceq ▸ List.mem_cons_self c tl)
    have htl : sep ∉ tl := fun hm => h (List.mem_cons_of_mem c hm)
    simp only [List.cons_append, splitOnCharAux, if_neg hc, List.append_eq]
    rw [ih htl]
    simp

theorem splitOnChar_not_mem {sep : Char} {l : List Char} (h : sep ∉ l) :
    splitOnChar sep l = [l] := by
  simpa using splitOnCharAux_not_mem h []

theorem splitOnChar_append_sep {sep : Char} {l : List Char} (h : sep ∉ l)
    (rest : List Char) :
    splitOnChar sep (l ++ sep :: rest) = l :: splitOnChar sep rest := by
  simpa [splitOnChar] using splitOnCharAux_append_sep h [] rest

theorem splitOnChar_cons_sep (sep : Char) (rest : List Char) :
    splitOnChar sep (sep :: rest) = [] :: splitOnChar sep rest :=
  splitOnChar_append_sep (List.not_mem_nil sep) rest

/-! ### Lemmas about decimal digits and `Atoi` -/

theorem digitChar_is_digit (d : Nat) : '0' ≤ digitChar d ∧ digitChar d ≤ '9' := by
  unfold digitChar
  split <;> exact ⟨by decide, by decide⟩

theorem digitVal_digitChar {d : Nat} (h : d < 10) :
    digitVal (digitChar d) = some d := by
  have : ∀ d : Fin 10, digitVal (digitChar d.val) = some d.val := by decide
  exact this ⟨d, h⟩

theorem natDigitsFuel_digit :
    ∀ fuel n, ∀ c ∈ natDigitsFuel fuel n, '0' ≤ c ∧ c ≤ '9' := by
  intro fuel
  induction fuel with
  | zero => intro n c hc; simp [natDigitsFuel] at hc
  | succ fuel ih =>
    intro n c hc
    simp only [natDigitsFuel] at hc
    by_cases h : n < 10
    · rw [if_pos h] at hc
      simp at hc
      exact hc ▸ digitChar_is_digit n
    · rw [if_neg h] at hc
      rcases List.mem_append.1 hc with h1 | h1
      · exact ih (n / 10) c h1
      · simp at h1
        exact h1 ▸ digitChar_is_digit (n % 10)

theorem natDigits_digit {n : Nat} {c : Char} (hc : c ∈ natDigits n) :
    '0' ≤ c ∧ c ≤ '9' :=
  natDigitsFuel_digit (n + 1) n c hc

theorem intChars_mem {i : Int} {c : Char} (hc : c ∈ intChars i) :
    c = '-' ∨ ('0' ≤ c ∧ c ≤ '9') := by
  unfold intChars at hc
  by_cases h : i < 0
  · rw [if_pos h] at hc
    rcases List.mem_cons.1 hc with h1 | h1
    · exact Or.inl h1
    · exact Or.inr (natDigits_digit h1)
  · rw [if_neg h] at hc
    exact Or.inr (natDigits_digit hc)

theorem digit_ne_special {c : Char} (h : '0' ≤ c ∧ c ≤ '9') :
    c ≠ '$' ∧ c ≠ ',' ∧ c ≠ '=' := by
  refine ⟨?_, ?_, ?_⟩ <;> rintro rfl <;> revert h <;> decide

theorem intChars_ne_special {i : Int} {c : Char} (hc : c ∈ intChars i) :
    c ≠ '$' ∧ c ≠ ',' ∧ c ≠ '=' := by
  rcases intChars_mem hc with rfl | h
  · exact ⟨by decide, by decide, by decide⟩
  · exact digit_ne_special h

theorem natDigitsFuel_ne_nil {fuel n : Nat} (h : 0 < fuel) :
    natDigitsFuel fuel n ≠ [] := by
  cases fuel with
  | zero => omega
  | succ fuel =>
    simp only [natDigitsFuel]
    split
    · simp
    · simp

theorem parseDigitsGo_append (l1 l2 : List Char) :
    ∀ acc, parseDigitsGo acc (l1 ++ l2) =
      match parseDigitsGo acc l1 with
      | none => none
      | some m => parseDigitsGo m l2 := by
  induction l1 with
  | nil => intro acc; simp [parseDigitsGo]
  | cons c tl ih =>
    intro acc
    simp only [List.cons_append, parseDigitsGo]
    cases digitVal c with
    | none => rfl
    | some d => exact ih (acc * 10 + d)

theorem parseDigitsGo_natDigitsFuel :
    ∀ fuel n, n < fuel → ∀ acc, ∃ k, 0 < k ∧ n < 10 ^ k ∧
      parseDigitsGo acc (natDigitsFuel fuel n) = some (acc * 10 ^ k + n) := by
  intro fuel
  induction fuel with
  | zero => intro n h; omega
  | succ fuel ih =>
    intro n hn acc
    by_cases h : n < 10
    · refine ⟨1, by omega, by omega, ?_⟩
      simp only [natDigitsFuel, if_pos h, parseDigitsGo, digitVal_digitChar h]
      simp
    · have hdiv : n / 10 < fuel := by omega
      obtain ⟨k, hk0, hklt, hkeq⟩ := ih (n / 10) hdiv acc
      refine ⟨k + 1, by omega, by omega, ?_⟩
      simp only [natDigitsFuel, if_neg h, parseDigitsGo_append, hkeq]
      simp only [parseDigitsGo, digitVal_digitChar (Nat.mod_lt n (by omega))]
      congr 1
      have hmod : n / 10 * 10 + n % 10 = n := by omega
      calc (acc * 10 ^ k + n / 10) * 10 + n % 10
          = acc * (10 ^ k * 10) + (n / 10 * 10 + n % 10) := by ring
        _ = acc * 10 ^ (k + 1) + n := by rw [hmod]; ring

theorem parseDigits_natDigits (n : Nat) : parseDigits (natDigits n) = some n := by
  obtain ⟨k, _, _, hk⟩ := parseDigitsGo_natDigitsFuel (n + 1) n (by omega) 0
  have hne : natDigits n ≠ [] := natDigitsFuel_ne_nil (by omega)
  obtain ⟨c, rest, hcons⟩ := List.exists_cons_of_ne_nil hne
  have hgo : parseDigits (natDigits n) = parseDigitsGo 0 (natDigits n) := by
    rw [hcons]; rfl
  rw [hgo]
  unfold natDigits
  rw [hk]
  simp

theorem Atoi_intChars {i : Int} (h : IntFits i) : Atoi (intChars i) = some i := by
  obtain ⟨hlo, hhi⟩ := h
  have hp : (2 : Nat) ^ 63 = 9223372036854775808 := by norm_num
  have hpz : (2 : Int) ^ 63 = 9223372036854775808 := by norm_num
  by_cases hneg : i < 0
  · have : intChars i = '-' :: natDigits i.natAbs := by simp [intChars, hneg]
    rw [this]
    simp only [Atoi, if_pos rfl, parseDigits_natDigits]
    have hcond : i.natAbs ≤ 2 ^ 63 := by omega
    rw [if_pos hcond]
    have hval : -((i.natAbs : Nat) : Int) = i := by omega
    rw [hval]
    simp
  · have hi : intChars i = natDigits i.natAbs := by simp [intChars, hneg]
    have hne : natDigits i.natAbs ≠ [] := natDigitsFuel_ne_nil (by omega)
    obtain ⟨c, rest, hcons⟩ := List.exists_cons_of_ne_nil hne
    have hcdig : '0' ≤ c ∧ c ≤ '9' := natDigits_digit (hcons ▸ List.mem_cons_self c rest)
    have hc1 : c ≠ '-' := by rintro rfl; revert hcdig; decide
    have hc2 : c ≠ '+' := by rintro rfl; revert hcdig; decide
    rw [hi, hcons]
    simp only [Atoi, if_neg hc1, if_neg hc2, ← hcons, parseDigits_natDigits]
    have hcond : i.natAbs < 2 ^ 63 := by omega
    rw [if_pos hcond]
    congr 1
    omega

/-! ### Lemmas about the base64 codec -/

theorem b64EncChar_mem (n : Nat) : b64EncChar n ∈ b64Alphabet := by
  unfold b64EncChar
  rw [List.getD_eq_getElem?_getD]
  cases hg : b64Alphabet[n]? with
  | none => simpa using (by decide : 'A' ∈ b64Alphabet)
  | some c => simp [List.getElem?_mem hg]

theorem b64Alphabet_ne_special :
    ∀ c ∈ b64Alphabet, c ≠ '$' ∧ c ≠ ',' ∧ c ≠ '=' ∧ c ≠ '\r' ∧ c ≠ '\n' := by
  decide

theorem b64Encode_mem : ∀ bs, ∀ c ∈ b64Encode bs, c ∈ b64Alphabet := by
  intro bs
  induction bs using b64Encode.induct with
  | case1 => intro c hc; simp [b64Encode] at hc
  | case2 b0 =>
    intro c hc
    simp [b64Encode] at hc
    rcases hc with rfl | rfl <;> exact b64EncChar_mem _
  | case3 b0 b1 =>
    intro c hc
    simp [b64Encode] at hc
    rcases hc with rfl | rfl | rfl <;> exact b64EncChar_mem _
  | case4 b0 b1 b2 rest ih =>
    intro c hc
    simp [b64Encode] at hc
    rcases hc with rfl | rfl | rfl | rfl | hmem
    · exact b64EncChar_mem _
    · exact b64EncChar_mem _
    · exact b64EncChar_mem _
    · exact b64EncChar_mem _
    · exact ih c hmem

theorem b64Encode_filter (bs : List Nat) :
    ((b64Encode bs).filter fun c => ¬(c = '\r' ∨ c = '\n')) = b64Encode bs := by
  rw [List.filter_eq_self]
  intro c hc
  have h := b64Alphabet_ne_special c (b64Encode_mem bs c hc)
  simp [h.2.2.2.1, h.2.2.2.2]

theorem b64DecChar_encChar {n : Nat} (h : n < 64) :
    b64DecChar (b64EncChar n) = some n := by
  have hall : ∀ m : Fin 64, b64DecChar (b64EncChar m.val) = some m.val := by decide
  exact hall ⟨n, h⟩

theorem b64DecChar_lt {c : Char} {n : Nat} (h : b64DecChar c = some n) : n < 64 := by
  unfold b64DecChar at h
  split at h
  · simp at h; omega
  split at h
  · simp at h; omega
  split at h
  · simp at h; omega
  split at h
  · simp at h; omega
  split at h
  · simp at h; omega
  · simp at h
theorem b64DecodeGroups_encode :
    ∀ bs, (∀ b ∈ bs, b < 256) → b64DecodeGroups (b64Encode bs) = some bs := by
  intro bs
  induction bs using b64Encode.induct with
  | case1 => intro _; rfl
  | case2 b0 =>
    intro hb
    have hb0 : b0 < 256 := hb b0 (by simp)
    have h1 : b0 % 256 * 65536 / 262144 < 64 := by omega
    have h2 : b0 % 256 * 65536 / 4096 % 64 < 64 := by omega
    simp only [b64Encode, b64DecodeGroups, b64DecChar_encChar h1, b64DecChar_encChar h2]
    have he : b0 % 256 * 65536 / 262144 * 4 + b0 % 256 * 65536 / 4096 % 64 / 16 = b0 := by omega
    rw [he]
  | case3 b0 b1 =>
    intro hb
    have hb0 : b0 < 256 := hb b0 (by simp)
    have hb1 : b1 < 256 := hb b1 (by simp)
    have h1 : (b0 % 256 * 65536 + b1 % 256 * 256) / 262144 < 64 := by omega
    have h2 : (b0 % 256 * 65536 + b1 % 256 * 256) / 4096 % 64 < 64 := by omega
    have h3 : (b0 % 256 * 65536 + b1 % 256 * 256) / 64 % 64 < 64 := by omega
    simp only [b64Encode, b64DecodeGroups, b64DecChar_encChar h1, b64DecChar_encChar h2,
      b64DecChar_encChar h3]
    have he1 : (b0 % 256 * 65536 + b1 % 256 * 256) / 262144 * 4 +
        (b0 % 256 * 65536 + b1 % 256 * 256) / 4096 % 64 / 16 = b0 := by omega
    have he2 : (b0 % 256 * 65536 + b1 % 256 * 256) / 4096 % 64 % 16 * 16 +
        (b0 % 256 * 65536 + b1 % 256 * 256) / 64 % 64 / 4 = b1 := by omega
    rw [he1, he2]
  | case4 b0 b1 b2 rest ih =>
    intro hb
    have hb0 : b0 < 256 := hb b0 (by simp)
    have hb1 : b1 < 256 := hb b1 (by simp)
    have hb2 : b2 < 256 := hb b2 (by simp)
    have hrest : ∀ b ∈ rest, b < 256 := fun b hm => hb b (by simp [hm])
    have h1 : (b0 % 256 * 65536 + b1 % 256 * 256 + b2 % 256) / 262144 < 64 := by omega
    have h2 : (b0 % 256 * 65536 + b1 % 256 * 256 + b2 % 256) / 4096 % 64 < 64 := by omega
    have h3 : (b0 % 256 * 65536 + b1 % 256 * 256 + b2 % 256) / 64 % 64 < 64 := by omega
    have h4 : (b0 % 256 * 65536 + b1 % 256 * 256 + b2 % 256) % 64 < 64 := by omega
    simp only [b64Encode, b64DecodeGroups, b64DecChar_encChar h1, b64DecChar_encChar h2,
      b64DecChar_encChar h3, b64DecChar_encChar h4, ih hrest]
    have he1 : (b0 % 256 * 65536 + b1 % 256 * 256 + b2 % 256) / 262144 * 4 +
        (b0 % 256 * 65536 + b1 % 256 * 256 + b2 % 256) / 4096 % 64 / 16 = b0 := by omega
    have he2 : (b0 % 256 * 65536 + b1 % 256 * 256 + b2 % 256) / 4096 % 64 % 16 * 16 +
        (b0 % 256 * 65536 + b1 % 256 * 256 + b2 % 256) / 64 % 64 / 4 = b1 := by omega
    have he3 : (b0 % 256 * 65536 + b1 % 256 * 256 + b2 % 256) / 64 % 64 % 4 * 64 +
        (b0 % 256 * 65536 + b1 % 256 * 256 + b2 % 256) % 64 = b2 := by omega
    rw [he1, he2, he3]

theorem b64Decode_encode {bs : List Nat} (hb : ∀ b ∈ bs, b < 256) :
    b64Decode (b64Encode bs) = some bs := by
  unfold b64Decode
  rw [b64Encode_filter]
  exact b64DecodeGroups_encode bs hb

theorem b64DecodeGroups_lt :
    ∀ (cs : List Char) (bs : List Nat), b64DecodeGroups cs = some bs → ∀ b ∈ bs, b < 256
  | [], bs, h => by
    simp [b64DecodeGroups] at h
    subst h
    simp
  | [_], bs, h => by
    simp [b64DecodeGroups] at h
  | [c0, c1], bs, h => by
    simp only [b64DecodeGroups] at h
    rcases h0 : b64DecChar c0 with _ | n0 <;> rw [h0] at h <;>
      rcases h1 : b64DecChar c1 with _ | n1 <;> rw [h1] at h <;> simp at h
    have l0 := b64DecChar_lt h0
    have l1 := b64DecChar_lt h1
    subst h
    intro b hb
    simp at hb
    omega
  | [c0, c1, c2], bs, h => by
    simp only [b64DecodeGroups] at h
    rcases h0 : b64DecChar c0 with _ | n0 <;> rw [h0] at h <;>
      rcases h1 : b64DecChar c1 with _ | n1 <;> rw [h1] at h <;>
      rcases h2 : b64DecChar c2 with _ | n2 <;> rw [h2] at h <;> simp at h
    have l0 := b64DecChar_lt h0
    have l1 := b64DecChar_lt h1
    have l2 := b64DecChar_lt h2
    subst h
    intro b hb
    simp at hb
    rcases hb with rfl | rfl <;> omega
  | c0 :: c1 :: c2 :: c3 :: rest, bs, h => by
    simp only [b64DecodeGroups] at h
    rcases h0 : b64DecChar c0 with _ | n0 <;> rw [h0] at h <;>
      rcases h1 : b64DecChar c1 with _ | n1 <;> rw [h1] at h <;>
      rcases h2 : b64DecChar c2 with _ | n2 <;> rw [h2] at h <;>
      rcases h3 : b64DecChar c3 with _ | n3 <;> rw [h3] at h <;> simp only [reduceCtorEq] at h
    rcases hrec : b64DecodeGroups rest with _ | bs0 <;> rw [hrec] at h <;> simp at h
    have l0 := b64DecChar_lt h0
    have l1 := b64DecChar_lt h1
    have l2 := b64DecChar_lt h2
    have l3 := b64DecChar_lt h3
    have ih := b64DecodeGroups_lt rest bs0 hrec
    subst h
    intro b hb
    simp at hb
    rcases hb with rfl | rfl | rfl | hmem
    · omega
    · omega
    · omega
    · exact ih b hmem

theorem b64Decode_lt {cs : List Char} {bs : List Nat}
    (h : b64Decode cs = some bs) : ∀ b ∈ bs, b < 256 :=
  b64DecodeGroups_lt _ bs h

/-! ### Lemmas about the constant-time comparison -/

theorem nat_or_eq_zero {a b : Nat} : a ||| b = 0 ↔ a = 0 ∧ b = 0 := by
  constructor
  · intro h
    constructor
    · apply Nat.eq_of_testBit_eq
      intro i
      have h2 := congrArg (fun n => Nat.testBit n i) h
      simp only [Nat.testBit_or, Nat.zero_testBit, Bool.or_eq_false_iff] at h2
      simp [h2.1]
    · apply Nat.eq_of_testBit_eq
      intro i
      have h2 := congrArg (fun n => Nat.testBit n i) h
      simp only [Nat.testBit_or, Nat.zero_testBit, Bool.or_eq_false_iff] at h2
      simp [h2.2]
  · rintro ⟨rfl, rfl⟩
    rfl

theorem ctcFold_lt : ∀ (x y : List Nat) (v : Nat), v < 256 → ctcFold x y v < 256
  | [], _, _, hv => by simpa [ctcFold] using hv
  | _ :: _, [], _, hv => by simpa [ctcFold] using hv
  | _ :: as, _ :: bs, _, _ => ctcFold_lt as bs _ (Nat.mod_lt _ (by omega))

theorem ctcFold_eq_zero :
    ∀ (x y : List Nat) (v : Nat), v < 256 → (∀ b ∈ x, b < 256) →
      (∀ b ∈ y, b < 256) → x.length = y.length →
      (ctcFold x y v = 0 ↔ v = 0 ∧ x = y)
  | [], [], v, _, _, _, _ => by simp [ctcFold]
  | [], _ :: _, v, _, _, _, hlen => by simp at hlen
  | _ :: _, [], v, _, _, _, hlen => by simp at hlen
  | a :: as, b :: bs, v, hv, hx, hy, hlen => by
    have ha : a < 256 := hx a (by simp)
    have hb : b < 256 := hy b (by simp)
    have h8 : (2 : Nat) ^ 8 = 256 := by norm_num
    have hxor : a ^^^ b < 256 := by
      have := Nat.xor_lt_two_pow (n := 8) (by omega : a < 2 ^ 8) (by omega : b < 2 ^ 8)
      omega
    have hor : v ||| (a ^^^ b) < 256 := by
      have := Nat.or_lt_two_pow (n := 8) (by omega : v < 2 ^ 8) (by omega : a ^^^ b < 2 ^ 8)
      omega
    have has : ∀ c ∈ as, c < 256 := fun c hc => hx c (by simp [hc])
    have hbs : ∀ c ∈ bs, c < 256 := fun c hc => hy c (by simp [hc])
    simp only [ctcFold, Nat.mod_eq_of_lt ha, Nat.mod_eq_of_lt hb, Nat.mod_eq_of_lt hor]
    rw [ctcFold_eq_zero as bs _ hor has hbs (by simpa using hlen)]
    rw [nat_or_eq_zero, Nat.xor_eq_zero]
    simp only [List.cons.injEq]
    tauto

theorem constantTimeByteEq_zero_iff {v : Nat} (hv : v < 256) :
    constantTimeByteEq v 0 = 1 ↔ v = 0 := by
  unfold constantTimeByteEq
  rw [Nat.zero_mod, Nat.xor_zero, Nat.mod_eq_of_lt hv]
  have h32 : (2 : Nat) ^ 32 = 4294967296 := by norm_num
  have h31 : (2 : Nat) ^ 31 = 2147483648 := by norm_num
  omega

theorem constantTimeCompare_eq_one_iff {x y : List Nat}
    (hx : ∀ b ∈ x, b < 256) (hy : ∀ b ∈ y, b < 256) :
    constantTimeCompare x y = 1 ↔ x = y := by
  unfold constantTimeCompare
  by_cases hlen : x.length = y.length
  · rw [if_neg (fun hne => hne hlen)]
    rw [constantTimeByteEq_zero_iff (ctcFold_lt x y 0 (by omega))]
    rw [ctcFold_eq_zero x y 0 (by omega) hx hy hlen]
    simp
  · rw [if_pos hlen]
    constructor
    · intro h
      simp at h
    · intro h
      exact absurd (congrArg List.length h) hlen

theorem ctcFoldSteps_eq_length :
    ∀ (x y : List Nat), x.length = y.length → ctcFoldSteps x y = x.length
  | [], [], _ => rfl
  | [], _ :: _, h => by simp at h
  | _ :: _, [], h => by simp at h
  | _ :: as, _ :: bs, h => by
    simp only [ctcFoldSteps, List.length_cons]
    rw [ctcFoldSteps_eq_length as bs (by simpa using h)]

/-! ### Lemmas about the Verify parsing stage -/

theorem parseParamsLoop_error (ps : List (List Char)) :
    ∀ (i k : Int) (e : GoErr),
      parseParamsLoop ps i k = .error e → e = GoErr.invalidOrCorruptedHash := by
  induction ps with
  | nil => intro i k e h; simp [parseParamsLoop] at h
  | cons p rest ih =>
    intro i k e h
    simp only [parseParamsLoop] at h
    split at h
    · split at h
      · split at h
        · exact (Except.error.inj h).symm
        · exact ih _ _ _ h
      · split at h
        · split at h
          · exact (Except.error.inj h).symm
          · exact ih _ _ _ h
        · exact ih _ _ _ h
    · exact ih _ _ _ h

theorem VerifyParse_error {s : List Char} {e : GoErr}
    (h : VerifyParse s = .error e) : e = GoErr.invalidOrCorruptedHash := by
  unfold VerifyParse at h
  split at h
  · split at h
    · exact (Except.error.inj h).symm
    · split at h
      · rename_i e0 heq
        exact (Except.error.inj h) ▸ parseParamsLoop_error _ _ _ _ heq
      · split at h
        · exact (Except.error.inj h).symm
        · split at h
          · exact (Except.error.inj h).symm
          · split at h
            · exact (Except.error.inj h).symm
            · simp at h
  · exact (Except.error.inj h).symm

theorem VerifyParse_ok {s : List Char} {i k : Int} {salt stored : List Nat}
    (h : VerifyParse s = .ok (i, k, salt, stored)) :
    (∀ b ∈ salt, b < 256) ∧ (∀ b ∈ stored, b < 256) ∧ i ≠ 0 ∧ k ≠ 0 := by
  unfold VerifyParse at h
  split at h
  · split at h
    · simp at h
    · split at h
      · simp at h
      · split at h
        · simp at h
        · split at h
          · simp at h
          · split at h
            · simp at h
            · rename_i x2 iters kl heq2 hz x1 salt0 hsalt x0 stored0 hstored
              rw [Except.ok.injEq] at h
              simp only [Prod.mk.injEq] at h
              obtain ⟨rfl, rfl, rfl, rfl⟩ := h
              exact ⟨b64Decode_lt hsalt, b64Decode_lt hstored,
                fun h0 => hz (Or.inl h0), fun h0 => hz (Or.inr h0)⟩
  · simp at h

/-! ### Lemmas about the wire format -/

theorem intChars_not_dollar {i : Int} : '$' ∉ intChars i :=
  fun h => (intChars_ne_special h).1 rfl

theorem intChars_not_comma {i : Int} : ',' ∉ intChars i :=
  fun h => (intChars_ne_special h).2.1 rfl

theorem intChars_not_eq {i : Int} : '=' ∉ intChars i :=
  fun h => (intChars_ne_special h).2.2 rfl

theorem b64Encode_not_dollar (bs : List Nat) : '$' ∉ b64Encode bs :=
  fun h => (b64Alphabet_ne_special '$' (b64Encode_mem bs '$' h)).1 rfl

theorem field2_not_dollar {i k : Int} :
    '$' ∉ ('i' :: '=' :: intChars i ++ ',' :: 'l' :: '=' :: intChars k) := by
  intro hmem
  simp only [List.mem_append, List.mem_cons] at hmem
  rcases hmem with (h | h | h) | (h | h | h | h)
  · exact absurd h (by decide)
  · exact absurd h (by decide)
  · exact intChars_not_dollar h
  · exact absurd h (by decide)
  · exact absurd h (by decide)
  · exact absurd h (by decide)
  · exact intChars_not_dollar h

theorem splitOnChar_fmtEncoded {i k : Int} {bs bh : List Char}
    (hbs : '$' ∉ bs) (hbh : '$' ∉ bh) :
    splitOnChar '$' (fmtEncoded i k bs bh) =
      [[], algTag, 'i' :: '=' :: intChars i ++ ',' :: 'l' :: '=' :: intChars k, bs, bh] := by
  have hfmt : fmtEncoded i k bs bh =
      '$' :: (algTag ++ '$' :: (('i' :: '=' :: intChars i ++ ',' :: 'l' :: '=' :: intChars k) ++
        '$' :: (bs ++ '$' :: bh))) := by
    simp [fmtEncoded]
  rw [hfmt, splitOnChar_cons_sep,
    splitOnChar_append_sep (by decide : '$' ∉ algTag),
    splitOnChar_append_sep field2_not_dollar,
    splitOnChar_append_sep hbs,
    splitOnChar_not_mem hbh]

theorem parseParamsLoop_fmt {i k : Int} (hi : IntFits i) (hk : IntFits k) :
    parseParamsLoop
      (splitOnChar ',' ('i' :: '=' :: intChars i ++ ',' :: 'l' :: '=' :: intChars k)) 0 0 =
      .ok (i, k) := by
  have hA : ',' ∉ ('i' :: '=' :: intChars i) := by
    intro hmem
    rcases List.mem_cons.1 hmem with h | hmem2
    · exact absurd h (by decide)
    rcases List.mem_cons.1 hmem2 with h | h
    · exact absurd h (by decide)
    · exact intChars_not_comma h
  have hB : ',' ∉ ('l' :: '=' :: intChars k) := by
    intro hmem
    rcases List.mem_cons.1 hmem with h | hmem2
    · exact absurd h (by decide)
    rcases List.mem_cons.1 hmem2 with h | h
    · exact absurd h (by decide)
    · exact intChars_not_comma h
  have hsplit : splitOnChar ',' ('i' :: '=' :: intChars i ++ ',' :: 'l' :: '=' :: intChars k) =
      [('i' :: '=' :: intChars i), ('l' :: '=' :: intChars k)] := by
    rw [splitOnChar_append_sep hA, splitOnChar_not_mem hB]
  have hsp1 : splitOnChar '=' ('i' :: '=' :: intChars i) = [['i'], intChars i] := by
    have h0 : 'i' :: '=' :: intChars i = ['i'] ++ '=' :: intChars i := rfl
    rw [h0, splitOnChar_append_sep (by decide), splitOnChar_not_mem intChars_not_eq]
  have hsp2 : splitOnChar '=' ('l' :: '=' :: intChars k) = [['l'], intChars k] := by
    have h0 : 'l' :: '=' :: intChars k = ['l'] ++ '=' :: intChars k := rfl
    rw [h0, splitOnChar_append_sep (by decide), splitOnChar_not_mem intChars_not_eq]
  rw [hsplit]
  simp only [parseParamsLoop, hsp1, hsp2, Atoi_intChars hi, Atoi_intChars hk]
  simp

theorem resolveParams_ne_zero (p : Params) :
    (resolveParams p).Iterations ≠ 0 ∧ (resolveParams p).KeyLen ≠ 0 := by
  constructor
  · by_cases h : p.Iterations = 0 <;> simp [resolveParams, DefaultParams, h]
  · by_cases h : p.KeyLen = 0 <;> simp [resolveParams, DefaultParams, h]

theorem GenerateSalt_ok {randRead : RandRead} {len : Int} {salt : List Nat}
    (h : GenerateSalt randRead len = .ok salt) :
    0 < len ∧ randRead len.toNat = .ok salt := by
  unfold GenerateSalt at h
  split at h
  · simp at h
  · rename_i hlen
    refine ⟨by omega, ?_⟩
    split at h
    · simp at h
    · rename_i salt0 heq
      rw [Except.ok.injEq] at h
      exact h ▸ heq

theorem ParamsHash_ok {p : Params} {prf : Prf} {randRead : RandRead}
    {password : List Nat} {s : List Char}
    (h : p.Hash prf randRead password = .ok s) :
    ∃ salt, randRead (resolveParams p).SaltLen.toNat = .ok salt ∧
      0 < (resolveParams p).SaltLen ∧
      s = fmtEncoded (resolveParams p).Iterations (resolveParams p).KeyLen
        (b64Encode salt)
        (b64Encode (prf (resolveParams p).HashFunc password salt
          (resolveParams p).Iterations (resolveParams p).KeyLen)) := by
  unfold Params.Hash at h
  dsimp only at h
  split at h
  · simp at h
  · rename_i salt heq
    obtain ⟨hpos, hread⟩ := GenerateSalt_ok heq
    rw [Except.ok.injEq] at h
    exact ⟨salt, hread, hpos, h.symm⟩

theorem VerifyParse_fmtEncoded {i k : Int} {salt dk : List Nat}
    (hi : IntFits i) (hk : IntFits k) (hiz : i ≠ 0) (hkz : k ≠ 0)
    (hsalt : ∀ b ∈ salt, b < 256) (hdk : ∀ b ∈ dk, b < 256) :
    VerifyParse (fmtEncoded i k (b64Encode salt) (b64Encode dk)) = .ok (i, k, salt, dk) := by
  unfold VerifyParse
  rw [splitOnChar_fmtEncoded (b64Encode_not_dollar salt) (b64Encode_not_dollar dk)]
  dsimp only
  rw [if_neg (fun hne => hne rfl)]
  rw [parseParamsLoop_fmt hi hk]
  dsimp only
  rw [if_neg (fun h0 => h0.elim hiz hkz)]
  rw [b64Decode_encode hsalt]
  dsimp only
  rw [b64Decode_encode hdk]

/-! ### Concrete instances of the external collaborators, for evaluation -/

/-- A concrete well-behaved random source: an all-zero byte stream. -/
def zeroRand : RandRead := fun n => .ok (List.replicate n 0)

theorem zeroRand_good : GoodRand zeroRand := by
  constructor
  · intro n bs h
    simp only [zeroRand, Except.ok.injEq] at h
    subst h
    refine ⟨by simp, ?_⟩
    intro b hb
    have := List.eq_of_mem_replicate hb
    omega
  · intro n e h
    simp [zeroRand] at h

/-- A concrete stand-in for the PBKDF2 primitive: a constant one-byte key. -/
def constPrf : Prf := fun _ _ _ _ _ => [1]

theorem constPrf_good : GoodPrf constPrf := by
  intro hf pw salt i k b hb
  simp only [constPrf, List.mem_singleton] at hb
  omega

/-! ### The claims -/

/-- C1: for every password and every parameter set whose resolved hash
family is the fixed SHA-256 family, if `Params.Hash` succeeds with an
encoded string then `Verify` of the same password against that string
returns `true` with no error. -/
theorem C1_verify_hash_roundtrip (prf : Prf) (randRead : RandRead)
    (p : Params) (password : List Nat) (s : List Char)
    (hrand : GoodRand randRead) (hprf : GoodPrf prf)
    (hfam : (resolveParams p).HashFunc = HashFam.sha256New)
    (hI : IntFits (resolveParams p).Iterations)
    (hK : IntFits (resolveParams p).KeyLen)
    (hok : p.Hash prf randRead password = .ok s) :
    Verify prf password s = .ok true := by
  obtain ⟨salt, hread, hpos, hs⟩ := ParamsHash_ok hok
  have hsaltb : ∀ b ∈ salt, b < 256 := (hrand.1 _ _ hread).2
  have hdkb := hprf (resolveParams p).HashFunc password salt
    (resolveParams p).Iterations (resolveParams p).KeyLen
  obtain ⟨hIne, hKne⟩ := resolveParams_ne_zero p
  subst hs
  unfold Verify
  rw [VerifyParse_fmtEncoded hI hK hIne hKne hsaltb hdkb]
  dsimp only
  rw [hfam]
  have hdkb2 := hprf HashFam.sha256New password salt
    (resolveParams p).Iterations (resolveParams p).KeyLen
  rw [if_pos ((constantTimeCompare_eq_one_iff hdkb2 hdkb2).2 rfl)]

/-- Witness for C1: a full hash/verify round trip at concrete inputs. -/
theorem C1_witness :
    Verify constPrf []
      ("$pbkdf2-sha256$i=120000,l=32$AAAAAAAAAAAAAAAAAAAAAA$AQ".toList) = .ok true :=
  C1_verify_hash_roundtrip constPrf zeroRand ⟨0, 0, 0, none⟩ [] _
    zeroRand_good constPrf_good rfl (by decide) (by decide) (by rfl)

/-- C2: on any encoded hash whose parsing stage succeeds, `Verify` returns
`ok` of exactly the byte-for-byte equality between the recomputed derived
key and the stored derived key — `true` on equality, `false` on any length
or content mismatch, never an error for a merely-wrong password. -/
theorem C2_verify_true_iff_match (prf : Prf) (password s i k salt stored)
    (hb : ∀ b ∈ prf HashFam.sha256New password salt i k, b < 256)
    (hparse : VerifyParse s = .ok (i, k, salt, stored)) :
    Verify prf password s =
      .ok (decide (prf HashFam.sha256New password salt i k = stored)) := by
  have hstored := (VerifyParse_ok hparse).2.1
  unfold Verify
  rw [hparse]
  dsimp only
  by_cases heq : prf HashFam.sha256New password salt i k = stored
  · rw [if_pos ((constantTimeCompare_eq_one_iff hb hstored).2 heq)]
    simp [heq]
  · rw [if_neg (fun hc => heq ((constantTimeCompare_eq_one_iff hb hstored).1 hc))]
    simp [heq]

/-- Witness for C2 at concrete inputs (a wrong password, yielding `false`). -/
theorem C2_witness :
    Verify constPrf [] ("$pbkdf2-sha256$i=1,l=1$AA$AA".toList) =
      .ok (decide (constPrf HashFam.sha256New [] [0] 1 1 = [0])) :=
  C2_verify_true_iff_match constPrf [] _ 1 1 [0] [0] (by decide) (by rfl)

/-- C3: every error `Verify` returns is the one generic invalid-or-corrupted
error value, whichever parsing sub-check failed. -/
theorem C3_verify_error_unique (prf : Prf) (password : List Nat) (s : List Char)
    (e : GoErr) (h : Verify prf password s = .error e) :
    e = GoErr.invalidOrCorruptedHash := by
  unfold Verify at h
  split at h
  · rename_i e0 heq
    exact (Except.error.inj h) ▸ VerifyParse_error heq
  · dsimp only at h
    split at h <;> simp at h

/-- Witness for C3 at a concrete malformed input. -/
theorem C3_witness :
    Verify constPrf [] ("invalid".toList) = .error GoErr.invalidOrCorruptedHash ∧
      GoErr.invalidOrCorruptedHash = GoErr.invalidOrCorruptedHash :=
  ⟨by rfl, C3_verify_error_unique constPrf [] ("invalid".toList) _ (by rfl)⟩

/-- C4 counterexample: a field-2 entry that is not a key=value pair
(`junk`) is skipped, not rejected, and negative `i` / `l` values are
accepted by the parser — both inputs produce `ok false`, not the
invalid-or-corrupted error the claim requires. -/
theorem C4_counterexample :
    Verify constPrf [] ("$pbkdf2-sha256$i=1,l=1,junk$AA$AA".toList) = .ok false ∧
      Verify constPrf [] ("$pbkdf2-sha256$i=-1,l=-1$AA$AA".toList) = .ok false := by
  constructor <;> rfl

/-- C4 amended: the field-2 scan is lenient — an entry that does not split
on `=` into exactly two parts is silently skipped (so non-key=value
entries never cause rejection), and `i` / `l` values that parse as
negative integers are accepted by the scan. -/
theorem C4_amended_field2_lenient :
    (∀ (e : List Char) (ps : List (List Char)) (i k : Int),
        (splitOnChar '=' e).length ≠ 2 →
        parseParamsLoop (e :: ps) i k = parseParamsLoop ps i k)
    ∧ VerifyParse ("$pbkdf2-sha256$i=1,l=1,junk$AA$AA".toList) = .ok (1, 1, [0], [0])
    ∧ VerifyParse ("$pbkdf2-sha256$i=-3,l=-2$AA$AA".toList) = .ok (-3, -2, [0], [0]) := by
  refine ⟨?_, by rfl, by rfl⟩
  intro e ps i k hlen
  simp only [parseParamsLoop]
  rcases hsp : splitOnChar '=' e with _ | ⟨a, _ | ⟨b, _ | ⟨c, tl⟩⟩⟩
  · rfl
  · rfl
  · exact absurd (by rw [hsp]; rfl) hlen
  · rfl

/-- Witness for C4's amended theorem: skipping a concrete non-pair entry. -/
theorem C4_amended_witness :
    parseParamsLoop ["junk".toList] 0 0 = parseParamsLoop [] 0 0 :=
  C4_amended_field2_lenient.1 ("junk".toList) [] 0 0 (by decide)

/-- C5: parameter resolution substitutes the fixed defaults exactly for the
zero fields — the all-zero parameter set resolves to the default set, a
Hash with all-zero parameters emits field 2 `i=120000,l=32` with a 16-byte
salt, and a Hash with only Iterations=1000 set emits `i=1000,l=32`, salt
length still 16. -/
theorem C5_default_resolution :
    resolveParams ⟨0, 0, 0, none⟩ = ⟨120000, 32, 16, HashFam.sha256New⟩
    ∧ (∀ (prf : Prf) (randRead : RandRead) (password : List Nat) (s : List Char),
        GoodRand randRead →
        Params.Hash ⟨0, 0, 0, none⟩ prf randRead password = .ok s →
        ∃ salt dk, salt.length = 16 ∧
          splitOnChar '$' s =
            [[], algTag, "i=120000,l=32".toList, b64Encode salt, b64Encode dk])
    ∧ (∀ (prf : Prf) (randRead : RandRead) (password : List Nat) (s : List Char),
        GoodRand randRead →
        Params.Hash ⟨1000, 0, 0, none⟩ prf randRead password = .ok s →
        ∃ salt dk, salt.length = 16 ∧
          splitOnChar '$' s =
            [[], algTag, "i=1000,l=32".toList, b64Encode salt, b64Encode dk]) := by
  refine ⟨rfl, ?_, ?_⟩
  · intro prf randRead password s hrand hok
    obtain ⟨salt, hread, hpos, hs⟩ := ParamsHash_ok hok
    subst hs
    have hlen : salt.length = 16 := by
      have h0 := (hrand.1 _ _ hread).1
      have h1 : ((resolveParams ⟨0, 0, 0, none⟩).SaltLen.toNat : Nat) = 16 := by rfl
      rw [h1] at h0
      exact h0
    refine ⟨salt,
      prf (resolveParams ⟨0, 0, 0, none⟩).HashFunc password salt
        (resolveParams ⟨0, 0, 0, none⟩).Iterations (resolveParams ⟨0, 0, 0, none⟩).KeyLen,
      hlen, ?_⟩
    rw [splitOnChar_fmtEncoded (b64Encode_not_dollar _) (b64Encode_not_dollar _)]
    rfl
  · intro prf randRead password s hrand hok
    obtain ⟨salt, hread, hpos, hs⟩ := ParamsHash_ok hok
    subst hs
    have hlen : salt.length = 16 := by
      have h0 := (hrand.1 _ _ hread).1
      have h1 : ((resolveParams ⟨1000, 0, 0, none⟩).SaltLen.toNat : Nat) = 16 := by rfl
      rw [h1] at h0
      exact h0
    refine ⟨salt,
      prf (resolveParams ⟨1000, 0, 0, none⟩).HashFunc password salt
        (resolveParams ⟨1000, 0, 0, none⟩).Iterations (resolveParams ⟨1000, 0, 0, none⟩).KeyLen,
      hlen, ?_⟩
    rw [splitOnChar_fmtEncoded (b64Encode_not_dollar _) (b64Encode_not_dollar _)]
    rfl

/-- Witness for C5: the defaulted Hash output at concrete inputs. -/
theorem C5_witness :
    ∃ salt dk, salt.length = 16 ∧
      splitOnChar '$' ("$pbkdf2-sha256$i=120000,l=32$AAAAAAAAAAAAAAAAAAAAAA$AQ".toList) =
        [[], algTag, "i=120000,l=32".toList, b64Encode salt, b64Encode dk] :=
  C5_default_resolution.2.1 constPrf zeroRand [] _ zeroRand_good (by rfl)

/-- C6: GenerateSalt fails with the invalid-argument error exactly when the
requested length is non-positive; a success returns exactly `length` bytes;
and a failing random source has its error propagated verbatim. -/
theorem C6_generateSalt_spec (randRead : RandRead) (hrand : GoodRand randRead)
    (length : Int) :
    ((GenerateSalt randRead length = .error GoErr.invalidArgument) ↔ length ≤ 0)
    ∧ (∀ bs, GenerateSalt randRead length = .ok bs →
        0 < length ∧ bs.length = length.toNat)
    ∧ (∀ e, 0 < length → randRead length.toNat = .error e →
        GenerateSalt randRead length = .error e) := by
  refine ⟨⟨?_, ?_⟩, ?_, ?_⟩
  · intro h
    by_contra hpos
    unfold GenerateSalt at h
    rw [if_neg hpos] at h
    cases hre : randRead length.toNat with
    | error e =>
      rw [hre] at h
      dsimp only at h
      obtain ⟨msg, hmsg⟩ := hrand.2 _ _ hre
      rw [hmsg] at h
      exact absurd (Except.error.inj h) (by simp)
    | ok bs =>
      rw [hre] at h
      simp at h
  · intro hle
    unfold GenerateSalt
    rw [if_pos hle]
  · intro bs h
    obtain ⟨hpos, hread⟩ := GenerateSalt_ok h
    exact ⟨hpos, (hrand.1 _ _ hread).1⟩
  · intro e hpos hre
    unfold GenerateSalt
    rw [if_neg (by omega), hre]

/-- Witness for C6: a non-positive length fails with the invalid-argument
error. -/
theorem C6_witness :
    GenerateSalt zeroRand (-1) = .error GoErr.invalidArgument :=
  (C6_generateSalt_spec zeroRand zeroRand_good (-1)).1.2 (by decide)

/-- C7: every string Hash returns has exactly the five-field wire format —
empty leading field, the fixed algorithm tag, `i=<iterations>,l=<keyLen>`
of the resolved parameters in decimal, then salt and derived key in
unpadded standard-alphabet base64 with no padding character. -/
theorem C7_wire_format (prf : Prf) (randRead : RandRead) (p : Params)
    (password : List Nat) (s : List Char)
    (hok : p.Hash prf randRead password = .ok s) :
    ∃ salt dk,
      splitOnChar '$' s =
        [[], algTag,
          'i' :: '=' :: intChars (resolveParams p).Iterations ++
            ',' :: 'l' :: '=' :: intChars (resolveParams p).KeyLen,
          b64Encode salt, b64Encode dk]
      ∧ (∀ c ∈ b64Encode salt, c ∈ b64Alphabet ∧ c ≠ '=')
      ∧ (∀ c ∈ b64Encode dk, c ∈ b64Alphabet ∧ c ≠ '=') := by
  obtain ⟨salt, hread, hpos, hs⟩ := ParamsHash_ok hok
  subst hs
  refine ⟨salt, _,
    splitOnChar_fmtEncoded (b64Encode_not_dollar _) (b64Encode_not_dollar _),
    ?_, ?_⟩
  · intro c hc
    have hm := b64Encode_mem _ c hc
    exact ⟨hm, (b64Alphabet_ne_special c hm).2.2.1⟩
  · intro c hc
    have hm := b64Encode_mem _ c hc
    exact ⟨hm, (b64Alphabet_ne_special c hm).2.2.1⟩

/-- Witness for C7 at concrete inputs. -/
theorem C7_witness :
    ∃ salt dk,
      splitOnChar '$' ("$pbkdf2-sha256$i=120000,l=32$AAAAAAAAAAAAAAAAAAAAAA$AQ".toList) =
        [[], algTag,
          'i' :: '=' :: intChars (resolveParams ⟨0, 0, 0, none⟩).Iterations ++
            ',' :: 'l' :: '=' :: intChars (resolveParams ⟨0, 0, 0, none⟩).KeyLen,
          b64Encode salt, b64Encode dk]
      ∧ (∀ c ∈ b64Encode salt, c ∈ b64Alphabet ∧ c ≠ '=')
      ∧ (∀ c ∈ b64Encode dk, c ∈ b64Alphabet ∧ c ≠ '=') :=
  C7_wire_format constPrf zeroRand ⟨0, 0, 0, none⟩ [] _ (by rfl)

/-- C8: the recomputation inside Verify always uses the fixed SHA-256
family — Verify's result depends on the primitive only through its value at
the fixed family, regardless of what family a caller configured; and on a
successful parse the derived key is recomputed from the candidate password
and the parsed salt, iteration count, and key length. -/
theorem C8_verify_fixed_family :
    (∀ prf1 prf2 : Prf,
        (∀ pw salt i k,
          prf1 HashFam.sha256New pw salt i k = prf2 HashFam.sha256New pw salt i k) →
        ∀ pw s, Verify prf1 pw s = Verify prf2 pw s)
    ∧ (∀ (prf : Prf) (pw : List Nat) (s : List Char) (i k : Int)
          (salt stored : List Nat),
        VerifyParse s = .ok (i, k, salt, stored) →
        Verify prf pw s =
          .ok (decide
            (constantTimeCompare (prf HashFam.sha256New pw salt i k) stored = 1))) := by
  constructor
  · intro prf1 prf2 hagree pw s
    unfold Verify
    cases VerifyParse s with
    | error e => rfl
    | ok t =>
      obtain ⟨i, k, salt, stored⟩ := t
      dsimp only
      rw [hagree]
  · intro prf pw s i k salt stored hparse
    unfold Verify
    rw [hparse]
    dsimp only
    split
    · rename_i hc
      simp [hc]
    · rename_i hc
      simp [hc]

/-- Witness for C8 at a concrete parsed input. -/
theorem C8_witness :
    Verify constPrf [] ("$pbkdf2-sha256$i=2,l=1$AA$AA".toList) =
      .ok (decide
        (constantTimeCompare (constPrf HashFam.sha256New [] [0] 2 1) [0] = 1)) :=
  C8_verify_fixed_family.2 constPrf [] _ 2 1 [0] [0] (by rfl)

/-- C9: the comparison loop of the constant-time compare runs for exactly
the full common length whenever the length check passes — its iteration
count is independent of the bytes compared and of where or whether they
differ. -/
theorem C9_comparison_constant_time (x y u v : List Nat)
    (hxy : x.length = y.length) (huv : u.length = v.length)
    (hxu : x.length = u.length) :
    constantTimeCompareSteps x y = x.length ∧
      constantTimeCompareSteps x y = constantTimeCompareSteps u v := by
  have h1 : constantTimeCompareSteps x y = x.length := by
    unfold constantTimeCompareSteps
    rw [if_neg (fun hne => hne hxy)]
    exact ctcFoldSteps_eq_length x y hxy
  have h2 : constantTimeCompareSteps u v = u.length := by
    unfold constantTimeCompareSteps
    rw [if_neg (fun hne => hne huv)]
    exact ctcFoldSteps_eq_length u v huv
  exact ⟨h1, by rw [h1, h2, hxu]⟩

/-- Witness for C9: equal cost on an early-mismatch pair and an equal
pair of the same length. -/
theorem C9_witness :
    constantTimeCompareSteps [0, 1] [7, 1] = 2 ∧
      constantTimeCompareSteps [0, 1] [7, 1] = constantTimeCompareSteps [5, 5] [5, 5] :=
  C9_comparison_constant_time [0, 1] [7, 1] [5, 5] [5, 5] rfl rfl rfl

/-- C10: defaults substitute only for fields that are exactly zero — a
strictly negative SaltLen is passed to GenerateSalt undefaulted, so Hash
fails with the invalid-argument error; strictly negative Iterations or
KeyLen survive resolution unchanged and are handed to the PBKDF2 primitive
as is. -/
theorem C10_no_default_for_negative :
    (∀ (p : Params) (prf : Prf) (randRead : RandRead) (password : List Nat),
        p.SaltLen < 0 → p.Hash prf randRead password = .error GoErr.invalidArgument)
    ∧ (∀ p : Params, p.Iterations < 0 → (resolveParams p).Iterations = p.Iterations)
    ∧ (∀ p : Params, p.KeyLen < 0 → (resolveParams p).KeyLen = p.KeyLen)
    ∧ (∀ (p : Params) (prf : Prf) (randRead : RandRead) (password salt : List Nat),
        GenerateSalt randRead (resolveParams p).SaltLen = .ok salt →
        p.Hash prf randRead password =
          .ok (fmtEncoded (resolveParams p).Iterations (resolveParams p).KeyLen
            (b64Encode salt)
            (b64Encode (prf (resolveParams p).HashFunc password salt
              (resolveParams p).Iterations (resolveParams p).KeyLen)))) := by
  refine ⟨?_, ?_, ?_, ?_⟩
  · intro p prf randRead password hneg
    have hsl : (resolveParams p).SaltLen = p.SaltLen := by
      unfold resolveParams
      dsimp only
      rw [if_neg (by omega)]
    unfold Params.Hash
    dsimp only
    rw [hsl]
    unfold GenerateSalt
    rw [if_pos (by omega)]
  · intro p hneg
    unfold resolveParams
    dsimp only
    rw [if_neg (by omega)]
  · intro p hneg
    unfold resolveParams
    dsimp only
    rw [if_neg (by omega)]
  · intro p prf randRead password salt h
    unfold Params.Hash
    dsimp only
    rw [h]

/-- Witness for C10: a negative salt length at concrete inputs. -/
theorem C10_witness :
    Params.Hash ⟨0, 0, -1, none⟩ constPrf zeroRand [] = .error GoErr.invalidArgument :=
  C10_no_default_for_negative.1 ⟨0, 0, -1, none⟩ constPrf zeroRand [] (by decide)
